import Mathlib

/-!
Verification of the data-preparation pipeline in `src/data/datasets.py`
(speech-decoding repository).

The tensors of the pipeline are embedded shallowly, time-major: a brain
recording of shape `(channels, time)` is a `List α` whose entries are the
per-time-step channel columns (an abstract `α`); an audio stream of shape
`(channels, time)` is likewise a `List β` of per-time-step frames.  All of
the operations the claims are about (slicing along the time axis,
reshaping the time axis into fixed windows, concatenating along time,
broadcasting across subjects) act only on the time axis, so this
representation is faithful to the numpy/torch code.

Python slicing (`a[i:j]`, including negative indices and the `a[:-0]`
pitfall), `int()` truncation, `np.allclose`, and row-major `reshape` are
modelled explicitly below.
-/

/-- Python `int()` applied to an exact rational: truncation toward zero
(`int(2.7) = 2`, `int(-2.7) = -2`). -/
def pyInt (q : ℚ) : Int :=
  if q < 0 then -((q.num.natAbs / q.den : Nat) : Int) else ((q.num.natAbs / q.den : Nat) : Int)

/-- Normalisation of a Python slice endpoint for a sequence of length `n`:
a negative index counts from the end (clamped at 0), a nonnegative index is
clamped at `n`. -/
def pyIdx (n : Nat) (i : Int) : Nat :=
  if i < 0 then (i + n).toNat else min i.toNat n

/-- Python slice `xs[i:j]` with full Python endpoint semantics (negative
indices count from the end; out-of-range endpoints are clamped).  In
particular `xs[0:-0] = xs[0:0] = []`, reproducing the `[:-0]` pitfall. -/
def pySlice (xs : List α) (i j : Int) : List α :=
  (xs.take (pyIdx xs.length j)).drop (pyIdx xs.length i)

/-- Python slice `xs[i:]`. -/
def pySliceFrom (xs : List α) (i : Int) : List α :=
  xs.drop (pyIdx xs.length i)

/-- Row-major `reshape(-1, W)` of a flat list: row `k` holds the elements
`[k*W, (k+1)*W)`.  numpy requires `W` to divide the length; both call sites
below trim first so that it does. -/
def reshapeRows (W : Nat) (xs : List α) : List (List α) :=
  (List.range (xs.length / W)).map fun k => (xs.drop (k * W)).take W

/-- `Brennan2018Dataset.batchfy`, windowing step for one subject
(`datasets.py:88-93`): `trim_len = L - L % seq_len`; keep `X[..., :trim_len]`
and reshape the time axis into rows of length `seq_len`. -/
def brennanWindows (W : Nat) (xs : List α) : List (List α) :=
  reshapeRows W (pySlice xs 0 ((xs.length : Int) - ((xs.length % W : Nat) : Int)))

/-- `Gwilliams2022Dataset.batchfy`, windowing step for one recording
(`datasets.py:228-236`): `trim_len = L % W`; keep `X[..., :-trim_len]` and
reshape into rows of length `W`.  Note Python's `[:-0]`: when `W` divides
`L` the slice keeps nothing.  The same trim-and-reshape is applied to the
brain tensor (with `meg_len`) and to the audio stream (with `audio_len`). -/
def gwWindows (W : Nat) (xs : List α) : List (List α) :=
  reshapeRows W (pySlice xs 0 (-((xs.length % W : Nat) : Int)))

/-- `shift_brain_signal` (`datasets.py:26-39`): `shift = int(srate * (shift_ms
/ 1000))`; brain loses `shift` leading samples per subject
(`X[:, :, shift:]`), audio loses `shift` trailing samples (`Y[:, :-shift]`).
`X` is the list of subjects, each a time-major list. -/
def shift_brain_signal (X : List (List α)) (Y : List β) (srate shiftMs : ℚ) :
    List (List α) × List β :=
  let s : Int := pyInt (srate * (shiftMs / 1000))
  (X.map fun xs => pySliceFrom xs s, pySlice Y 0 (-s))

/-- `Brennan2018Dataset.batchfy` (`datasets.py:84-107`).  `X` is the stack of
per-subject recordings (rectangular in the source: the tensor shares one
time length, checked against `Y` by `assert X.shape[-1] == Y.shape[-1]`,
modelled as `none` on failure).  Windows are flattened subject-major; the
single audio track `Y` is broadcast (`unsqueeze(0).expand`) so every subject
is paired with the identical audio windows; `subject_idxs` is
`arange(num_subjects)` expanded over each subject's window count. -/
def brennan_batchfy (X : List (List α)) (Y : List β) (W : Nat) :
    Option (List (List α) × List (List β) × List Nat) :=
  if X.all fun r => r.length = Y.length then
    let Yw := brennanWindows W Y
    some ((X.map (brennanWindows W)).flatten,
          (List.replicate X.length Yw).flatten,
          ((List.range X.length).map fun s => List.replicate Yw.length s).flatten)
  else none

/-- One recording of the Gwilliams2022 corpus as consumed by its `batchfy`:
the key `subject{s}_sess{i}_task{t}` carries the subject number `s` and the
task `t` (audio is looked up by task), and `X` is the recording's
time-major brain data. -/
structure GwRec (α : Type u) where
  subjNum : Nat
  task : Nat
  X : List α

/-- Subject index emitted by `Gwilliams2022Dataset.batchfy`
(`datasets.py:242-243`): `int(key.split("_")[0][-2:]) - 1`.  The key's first
component is `"subject" + str(s).zfill(2)` (`datasets.py:257`), so `[-2:]`
keeps exactly the last two decimal digits of the subject number: the parsed
value is `s % 100` (for one- and two-digit `s` the zero-padding makes this
`s` itself).  The `- 1` result is materialised through a `torch.uint8`
tensor, hence mod 256 with Python semantics (`-1` wraps to `255`). -/
def gwSubjIdx (s : Nat) : Nat :=
  ((((s % 100 : Nat) : Int) - 1).emod 256).toNat

/-- One iteration of the loop in `Gwilliams2022Dataset.batchfy`
(`datasets.py:226-244`): window the recording's brain data with `meg_len`,
window the task's audio with `audio_len`, emit one subject index per brain
window; `assert X.shape[0] == Y.shape[0]` is modelled as `none`. -/
def gw_batchfy_rec (Ymap : Nat → List β) (Wm Wa : Nat) (r : GwRec α) :
    Option (List (List α) × List (List β) × List Nat) :=
  let Xw := gwWindows Wm r.X
  let Yw := gwWindows Wa (Ymap r.task)
  if Xw.length = Yw.length then
    some (Xw, Yw, List.replicate Xw.length (gwSubjIdx r.subjNum))
  else none

/-- The per-recording loop of `Gwilliams2022Dataset.batchfy`, collecting one
triple per recording (the `X_list` / `Y_list` / `subject_idxs_list` of the
source); the first failing assert aborts the whole call. -/
def gw_collect (Ymap : Nat → List β) (Wm Wa : Nat) :
    List (GwRec α) → Option (List (List (List α) × List (List β) × List Nat))
  | [] => some []
  | r :: rest =>
    match gw_batchfy_rec Ymap Wm Wa r, gw_collect Ymap Wm Wa rest with
    | some p, some ps => some (p :: ps)
    | _, _ => none

/-- `Gwilliams2022Dataset.batchfy` (`datasets.py:222-249`): run the loop over
all recordings and concatenate along the flat leading axis (`torch.cat`,
which raises on an empty list of recordings, modelled as `none`). -/
def gw_batchfy (Ymap : Nat → List β) (Wm Wa : Nat) (recs : List (GwRec α)) :
    Option (List (List α) × List (List β) × List Nat) :=
  match recs with
  | [] => none
  | _ :: _ =>
    (gw_collect Ymap Wm Wa recs).map fun parts =>
      ((parts.map fun p => p.1).flatten,
       (parts.map fun p => p.2.1).flatten,
       (parts.map fun p => p.2.2).flatten)

/-- A pandas `Timestamp` as consumed by `Gwilliams2022Dataset.to_second`
(`datasets.py:347-349`), which reads only its minute, second and
microsecond fields. -/
structure Timestamp where
  minute : Nat
  second : Nat
  microsecond : Nat

/-- `to_second` (`datasets.py:347-349`):
`onset.minute * 60 + onset.second + onset.microsecond * 1e-6`. -/
def to_second (ts : Timestamp) : ℚ :=
  (ts.minute : ℚ) * 60 + (ts.second : ℚ) + (ts.microsecond : ℚ) * (1 / 1000000)

/-- One row of the annotation data frame used by `trim_nosound_regions`: the
parsed `sound_id` of the description, the onset timestamp and the duration
in seconds. -/
structure Annot where
  sound_id : ℚ
  onset : Timestamp
  duration : ℚ

/-- The boundary-detection loop of `trim_nosound_regions`
(`datasets.py:352-359`): scanning the annotations with running
`prev_sound_id` (initially `-1.0`) and index `t`, every change of sound id
appends `[t - 1, t]`. -/
def detect_go (prev : ℚ) (t : Nat) : List Annot → List Int
  | [] => []
  | a :: rest =>
    if a.sound_id = prev then detect_go prev (t + 1) rest
    else ((t : Int) - 1) :: (t : Int) :: detect_go a.sound_id (t + 1) rest

/-- `np.reshape(starts_ends_t, (-1, 2))` (`datasets.py:362`): group the flat
index list into consecutive pairs; numpy raises on an odd-length list
(modelled as `none`). -/
def pairUp : List Int → Option (List (Int × Int))
  | [] => some []
  | [_] => none
  | a :: b :: rest => (pairUp rest).map fun ps => (a, b) :: ps

/-- Segment start/end in seconds for one `(start_t, end_t)` pair
(`datasets.py:366-368`): `start = to_second(onset[start_t])`,
`end = to_second(onset[end_t]) + duration[end_t]`.  An out-of-range (or
negative) label raises a pandas `KeyError`, modelled as `none`. -/
def segTimes (annots : List Annot) (p : Int × Int) : Option (ℚ × ℚ) :=
  match (if p.1 < 0 then none else annots.get? p.1.toNat),
        (if p.2 < 0 then none else annots.get? p.2.toNat) with
  | some sa, some sb => some (to_second sa.onset, to_second sb.onset + sb.duration)
  | _, _ => none

/-- `segTimes` over all detected pairs; any failure aborts. -/
def segTimesAll (annots : List Annot) : List (Int × Int) → Option (List (ℚ × ℚ))
  | [] => some []
  | p :: rest =>
    match segTimes annots p, segTimesAll annots rest with
    | some t, some ts => some (t :: ts)
    | _, _ => none

/-- `Gwilliams2022Dataset.trim_nosound_regions` with the sample rate used for
slicing left as a parameter `rate`: slices the (time-major) brain matrix at
`meg_raw[:, int(start*rate):int(end*rate)]` for each detected segment and
concatenates, also returning the per-segment real durations `end - start`.
An empty annotation stream leaves the loop variable `t` unbound (a Python
`NameError`), modelled as `none`. -/
def trimWithRate (rate : ℚ) (meg : List α) (annots : List Annot) :
    Option (List α × List ℚ) :=
  match annots with
  | [] => none
  | _ :: _ =>
    match pairUp ((detect_go (-1) 0 annots).drop 1 ++ [(annots.length : Int) - 1]) with
    | none => none
    | some pairs =>
      match segTimesAll annots pairs with
      | none => none
      | some times =>
        some ((times.map fun p => pySlice meg (pyInt (p.1 * rate)) (pyInt (p.2 * rate))).flatten,
              times.map fun p => p.2 - p.1)

/-- `Gwilliams2022Dataset.trim_nosound_regions` (`datasets.py:351-376`): the
source slices with `int(start * 1000)` / `int(end * 1000)` — the literal
constant 1000, independent of any sample rate. -/
def trim_nosound_regions (meg : List α) (annots : List Annot) :
    Option (List α × List ℚ) :=
  match annots with
  | [] => none
  | _ :: _ =>
    match pairUp ((detect_go (-1) 0 annots).drop 1 ++ [(annots.length : Int) - 1]) with
    | none => none
    | some pairs =>
      match segTimesAll annots pairs with
      | none => none
      | some times =>
        some ((times.map fun p => pySlice meg (pyInt (p.1 * 1000)) (pyInt (p.2 * 1000))).flatten,
              times.map fun p => p.2 - p.1)

/-- Number of maximal runs of consecutive equal values (the `N` of the spec's
"N alternating sound-id segments"). -/
def countRuns : List ℚ → Nat
  | [] => 0
  | [_] => 1
  | a :: b :: rest => (if a = b then 0 else 1) + countRuns (b :: rest)

/-- `np.allclose` default `atol = 1e-8`. -/
def atolQ : ℚ := 1 / 100000000

/-- `np.allclose` default `rtol = 1e-5`. -/
def rtolQ : ℚ := 1 / 100000

/-- The elementwise test of `np.allclose`: `|a - b| <= atol + rtol * |b|`. -/
def closePair (x y : ℚ) : Bool :=
  decide (|x - y| ≤ atolQ + rtolQ * |y|)

/-- `np.allclose` on two 1-D arrays: defined only when the shapes broadcast
(equal lengths, or one side of length 1); non-broadcastable shapes raise a
`ValueError`, modelled as `none`. -/
def np_allclose (a b : List ℚ) : Option Bool :=
  if a.length = b.length then some ((a.zip b).all fun p => closePair p.1 p.2)
  else if a.length = 1 then some (b.all fun y => closePair (a.headD 0) y)
  else if b.length = 1 then some (a.all fun x => closePair x (b.headD 0))
  else none

/-- Python `dict` update `d[task] = v` on an association list (replace the
existing binding, else append). -/
def setTask (store : List (Nat × List ℚ)) (task : Nat) (v : List ℚ) :
    List (Nat × List ℚ) :=
  match store with
  | [] => [(task, v)]
  | (k, w) :: rest => if k = task then (k, v) :: rest else (k, w) :: setTask rest task v

/-- `Gwilliams2022Dataset.update_real_durations` (`datasets.py:378-386`): if
the task is already cached, compare with `np.allclose` (whose broadcast
`ValueError` propagates, modelled as `none`) and warn (`Bool` result) when
not close; in the surviving cases overwrite the cached entry with the new
durations. -/
def update_real_durations (store : List (Nat × List ℚ)) (task : Nat)
    (new : List ℚ) : Option (List (Nat × List ℚ) × Bool) :=
  match store.lookup task with
  | none => some (setTask store task new, false)
  | some old =>
    match np_allclose old new with
    | none => none
    | some c => some (setTask store task new, !c)

/-- The truncation step of `Gwilliams2022Dataset.audio_preproc`
(`datasets.py:319-323`): `cutoff = int(sample_rate * real_duration)`;
`if waveform.shape[1] > cutoff: waveform = waveform[:, :cutoff]` else the
waveform is kept whole and a warning is printed (the `Bool`). -/
def audio_cut (w : List ℚ) (srate : Nat) (dur : ℚ) : List ℚ × Bool :=
  let cutoff : Int := pyInt ((srate : ℚ) * dur)
  if cutoff < (w.length : Int) then (pySlice w 0 cutoff, false) else (w, true)

/-- The pre-cosine stack of `ToyDataset.__init__` (`datasets.py:394-396`):
channel `c` of `Y` is the whole `linspaces` matrix (`num_samples × seq_len`,
abstracted as `ls`) scaled by that channel's random factor `rands[c]`. -/
def toy_preY (ls : List (List ℚ)) (rands : List ℚ) : List (List (List ℚ)) :=
  rands.map fun rc => ls.map fun row => row.map fun v => v * rc

/-- torch `permute(1, 0, 2)` of a rectangular `(d0, d1, d2)` nested-list
tensor whose middle dimension is `d1`. -/
def permute102 (d1 : Nat) (t : List (List (List ℚ))) : List (List (List ℚ)) :=
  (List.range d1).map fun i => t.map fun ch => ch.getD i []

/-- `ToyDataset.Y` (`datasets.py:396,400`): `cos` applied to the permuted
pre-cosine stack.  The transcendental cosine is abstracted as `f`. -/
def toy_Y (f : ℚ → ℚ) (ls : List (List ℚ)) (rands : List ℚ) :
    List (List (List ℚ)) :=
  (permute102 ls.length (toy_preY ls rands)).map fun m => m.map fun row => row.map f

/-- `ToyDataset.X` (`datasets.py:398,401`): the slice `Y[:X_dim]` of the
pre-cosine stack, permuted and passed through `cos` the same way. -/
def toy_X (f : ℚ → ℚ) (Xdim : Nat) (ls : List (List ℚ)) (rands : List ℚ) :
    List (List (List ℚ)) :=
  (permute102 ls.length ((toy_preY ls rands).take Xdim)).map fun m =>
    m.map fun row => row.map f

theorem pyIdx_zero (n : Nat) : pyIdx n 0 = 0 := by
  simp [pyIdx]

theorem pyIdx_coe (n j : Nat) : pyIdx n (j : Int) = min j n := by
  simp [pyIdx]

theorem pySlice_zero_coe (xs : List α) (j : Nat) : pySlice xs 0 (j : Int) = xs.take j := by
  rcases le_total j xs.length with h | h
  · simp [pySlice, pyIdx_zero, pyIdx_coe, min_eq_left h]
  · simp [pySlice, pyIdx_zero, pyIdx_coe, min_eq_right h, List.take_of_length_le h,
      List.take_length]

theorem pySlice_zero_neg (xs : List α) (m : Nat) (hm : 0 < m) :
    pySlice xs 0 (-(m : Int)) = xs.take (xs.length - m) := by
  have hneg : (-(m : Int)) < 0 := by omega
  have htn : ((-(m : Int)) + (xs.length : Int)).toNat = xs.length - m := by omega
  simp [pySlice, pyIdx, hneg, htn]

theorem reshapeRows_length (W : Nat) (xs : List α) :
    (reshapeRows W xs).length = xs.length / W := by
  simp [reshapeRows]

theorem brennanWindows_eq_take (W : Nat) (xs : List α) :
    brennanWindows W xs = reshapeRows W (xs.take (xs.length - xs.length % W)) := by
  have hle := Nat.mod_le xs.length W
  have h : ((xs.length : Int) - ((xs.length % W : Nat) : Int))
      = ((xs.length - xs.length % W : Nat) : Int) := by omega
  rw [brennanWindows, h, pySlice_zero_coe]

theorem gwWindows_eq (W : Nat) (xs : List α) :
    gwWindows W xs =
      if xs.length % W = 0 then []
      else reshapeRows W (xs.take (xs.length - xs.length % W)) := by
  by_cases h : xs.length % W = 0
  · simp [gwWindows, h, pySlice, pyIdx_zero, reshapeRows]
  · rw [gwWindows, pySlice_zero_neg _ _ (Nat.pos_of_ne_zero h)]
    simp [h]

theorem brennanWindows_length (W : Nat) (xs : List α) :
    (brennanWindows W xs).length = (xs.length - xs.length % W) / W := by
  rw [brennanWindows_eq_take, reshapeRows_length, List.length_take,
    min_eq_left (Nat.sub_le _ _)]

theorem sub_mod_div (L W : Nat) (hW : 0 < W) : (L - L % W) / W = L / W := by
  have hdm := Nat.div_add_mod L W
  have : L - L % W = W * (L / W) := by omega
  rw [this, Nat.mul_div_cancel_left _ hW]

theorem gwWindows_length (W : Nat) (xs : List α) (hW : 0 < W) :
    (gwWindows W xs).length = if xs.length % W = 0 then 0 else xs.length / W := by
  rw [gwWindows_eq]
  by_cases h : xs.length % W = 0
  · simp [h]
  · simp only [h, if_false, reshapeRows_length, List.length_take,
      min_eq_left (Nat.sub_le _ _)]
    exact sub_mod_div _ _ hW

theorem flatten_range_chunks (W : Nat) :
    ∀ (n : Nat) (xs : List α), n * W ≤ xs.length →
      (((List.range n).map fun k => (xs.drop (k * W)).take W)).flatten = xs.take (n * W) := by
  intro n
  induction n with
  | zero => intro xs _; simp
  | succ n ih =>
    intro xs h
    have hn : n * W ≤ xs.length := le_trans (by nlinarith) h
    rw [List.range_succ, List.map_append, List.flatten_append, ih xs hn]
    simp only [List.map_cons, List.map_nil, List.flatten_cons, List.flatten_nil,
      List.append_nil]
    rw [← List.take_add]
    ring_nf

theorem reshapeRows_flatten (W : Nat) (xs : List α) (hW : 0 < W) (hdvd : W ∣ xs.length) :
    (reshapeRows W xs).flatten = xs := by
  rw [reshapeRows, flatten_range_chunks W (xs.length / W) xs
      (by rw [Nat.div_mul_cancel hdvd]),
    Nat.div_mul_cancel hdvd, List.take_length]

/-- C1: for every input time length `L` and window length `1 ≤ W ≤ L`, the
Brennan2018 `batchfy` windowing produces exactly `⌊L / W⌋` windows (remainder
dropped, never padded) — but the Gwilliams2022 `batchfy` windowing produces
`⌊L / W⌋` windows only when `W` does not divide `L`; when `L` is an exact
multiple of `W` its `X[:, :-trim_len]` slice with `trim_len = L % W = 0`
keeps nothing and it produces `0` windows instead of `L / W`.  This theorem
evaluates both implementations, exhibiting the divergence the claim misses. -/
theorem window_count_floor_div :
    (∀ (α : Type) (xs : List α) (W : Nat), 0 < W →
        (brennanWindows W xs).length = xs.length / W) ∧
    ∀ (α : Type) (xs : List α) (W : Nat), 0 < W →
      (gwWindows W xs).length = if xs.length % W = 0 then 0 else xs.length / W := by
  constructor
  · intro α xs W hW
    rw [brennanWindows_length, sub_mod_div _ _ hW]
  · intro α xs W hW
    exact gwWindows_length W xs hW

/-- C1 witness: at `L = 5, W = 2` the Brennan windowing yields `⌊5/2⌋ = 2`
windows; at `L = 6, W = 3` (an exact multiple) the Gwilliams windowing
yields `0` windows, not `⌊6/3⌋ = 2`. -/
theorem window_count_floor_div_witness :
    (brennanWindows 2 [10, 20, 30, 40, 50]).length = ([10, 20, 30, 40, 50] : List Nat).length / 2 ∧
    (gwWindows 3 [0, 1, 2, 3, 4, 5]).length =
      if ([0, 1, 2, 3, 4, 5] : List Nat).length % 3 = 0 then 0
      else ([0, 1, 2, 3, 4, 5] : List Nat).length / 3 :=
  ⟨window_count_floor_div.1 Nat [10, 20, 30, 40, 50] 2 (by decide),
   window_count_floor_div.2 Nat [0, 1, 2, 3, 4, 5] 3 (by decide)⟩

/-- C2: on already-trimmed input (time length an exact multiple of the window
length) the Brennan2018 windowing is a pure axis rearrangement — flattening
the windows back along time recovers the original sequence — but the
Gwilliams2022 windowing empties such input (its `[:-0]` trim drops every
sample), so the round-trip returns `[]` instead of the original sequence. -/
theorem windows_roundtrip :
    (∀ (α : Type) (xs : List α) (W : Nat), 0 < W → W ∣ xs.length →
        (brennanWindows W xs).flatten = xs) ∧
    (gwWindows 2 [10, 20, 30, 40] : List (List Nat)).flatten = [] := by
  constructor
  · intro α xs W hW hdvd
    have h0 : xs.length % W = 0 := by
      obtain ⟨c, hc⟩ := hdvd
      simp [hc, Nat.mul_mod_right]
    rw [brennanWindows_eq_take, h0, Nat.sub_zero, List.take_length,
      reshapeRows_flatten W xs hW hdvd]
  · decide

/-- C2 witness: round-trip on `[7, 8, 9, 10]` with `W = 2`. -/
theorem windows_roundtrip_witness :
    (brennanWindows 2 [7, 8, 9, 10]).flatten = [7, 8, 9, 10] :=
  windows_roundtrip.1 Nat [7, 8, 9, 10] 2 (by decide) (by decide)

/-- C4: the claim asserts that for every computed shift `S = int(srate *
shift_ms / 1000)` with `0 <= S < L`, `shift_brain_signal` returns brain and
audio of equal time length `L - S`.  This fails at `S = 0` (reachable, e.g.
`shift_ms = 0`, the spec's own end-to-end scenario): `Y[:, :-0]` empties the
audio, so brain keeps length `L` while audio becomes length `0`.  This
theorem evaluates the code at that failing input (`L = 4`, `srate = 135`,
`shift_ms = 0`, hence `S = 0`). -/
theorem shift_zero_empties_audio :
    pyInt ((135 : ℚ) * (0 / 1000)) = 0 ∧
    (shift_brain_signal [[(1 : ℕ), 2, 3, 4]] [(1 : ℕ), 2, 3, 4] 135 0).1 = [[1, 2, 3, 4]] ∧
    (shift_brain_signal [[(1 : ℕ), 2, 3, 4]] [(1 : ℕ), 2, 3, 4] 135 0).2.length = 0 := by
  refine ⟨by norm_num [pyInt], ?_, ?_⟩ <;>
    norm_num [shift_brain_signal, pyInt, pySlice, pySliceFrom, pyIdx]

theorem flatten_replicate_block (k : Nat) (ys : List α) :
    ∀ s, s < k →
      (((List.replicate k ys).flatten.drop (s * ys.length)).take ys.length) = ys := by
  induction k with
  | zero => intro s hs; omega
  | succ k ih =>
    intro s hs
    rw [List.replicate_succ, List.flatten_cons]
    cases s with
    | zero => simpa using List.take_left ys (List.replicate k ys).flatten
    | succ s =>
      have hmul : (s + 1) * ys.length = ys.length + s * ys.length := by ring
      rw [hmul, List.drop_append]
      exact ih s (by omega)

theorem gw_collect_spec (Ymap : Nat → List β) (Wm Wa : Nat) :
    ∀ (recs : List (GwRec α)) (parts : List (List (List α) × List (List β) × List Nat)),
      gw_collect Ymap Wm Wa recs = some parts →
      parts.map (fun p => p.1.length) = recs.map (fun r => (gwWindows Wm r.X).length) ∧
      (∀ p ∈ parts, p.2.1.length = p.1.length ∧ p.2.2.length = p.1.length) ∧
      (∀ p ∈ parts, ∀ i ∈ p.2.2, ∃ r ∈ recs, i = gwSubjIdx r.subjNum) := by
  intro recs
  induction recs with
  | nil =>
    intro parts h
    simp only [gw_collect, Option.some.injEq] at h
    subst h
    simp
  | cons r rest ih =>
    intro parts h
    simp only [gw_collect] at h
    cases hrec : gw_batchfy_rec Ymap Wm Wa r with
    | none => rw [hrec] at h; exact absurd h (by simp)
    | some p =>
      cases hrest : gw_collect Ymap Wm Wa rest with
      | none => rw [hrec, hrest] at h; exact absurd h (by simp)
      | some ps =>
        rw [hrec, hrest] at h
        simp only [Option.some.injEq] at h
        subst h
        obtain ⟨ih1, ih2, ih3⟩ := ih ps hrest
        simp only [gw_batchfy_rec] at hrec
        split at hrec
        case isFalse => exact absurd hrec (by simp)
        case isTrue hc =>
          simp only [Option.some.injEq] at hrec
          subst hrec
          refine ⟨?_, ?_, ?_⟩
          · simp only [List.map_cons, ih1, List.length_replicate]
          · intro q hq
            rcases List.mem_cons.mp hq with rfl | hq'
            · exact ⟨hc.symm, by simp⟩
            · exact ih2 q hq'
          · intro q hq i hi
            rcases List.mem_cons.mp hq with rfl | hq'
            · exact ⟨r, by simp, List.eq_of_mem_replicate hi⟩
            · obtain ⟨r', hr', hi'⟩ := ih3 q hq' i hi
              exact ⟨r', List.mem_cons_of_mem _ hr', hi'⟩

/-- C3: after windowing, brain windows, audio windows and subject indices
share one flat leading-axis length, equal to the sum over subjects
(Brennan2018) resp. over subject/session/task recordings (Gwilliams2022) of
that recording's window count; and in the single-audio-track Brennan2018
corpus every subject's block of audio windows is the identical broadcast
window list of the shared track. -/
theorem batchfy_flat_lengths :
    (∀ (α β : Type) (X : List (List α)) (Y : List β) (W : Nat)
        (out : List (List α) × List (List β) × List Nat),
        brennan_batchfy X Y W = some out →
        out.1.length = (X.map fun r => (brennanWindows W r).length).sum ∧
        out.2.1.length = out.1.length ∧
        out.2.2.length = out.1.length ∧
        ∀ s, s < X.length →
          ((out.2.1.drop (s * (brennanWindows W Y).length)).take
              (brennanWindows W Y).length) = brennanWindows W Y) ∧
    ∀ (α β : Type) (recs : List (GwRec α)) (Ymap : Nat → List β) (Wm Wa : Nat)
      (out : List (List α) × List (List β) × List Nat),
      gw_batchfy Ymap Wm Wa recs = some out →
      out.1.length = (recs.map fun r => (gwWindows Wm r.X).length).sum ∧
      out.2.1.length = out.1.length ∧
      out.2.2.length = out.1.length := by
  constructor
  · intro α β X Y W out h
    rw [brennan_batchfy] at h
    split at h
    case isFalse => exact absurd h (by simp)
    case isTrue hall =>
      simp only [Option.some.injEq] at h
      subst h
      have hcount : ∀ r ∈ X, (brennanWindows W r).length = (brennanWindows W Y).length := by
        intro r hr
        have hr' : r.length = Y.length := by
          have := (List.all_eq_true.mp hall) r hr
          exact of_decide_eq_true this
        rw [brennanWindows_length, brennanWindows_length, hr']
      have hsum : (X.map fun r => (brennanWindows W r).length).sum
          = X.length * (brennanWindows W Y).length := by
        rw [List.map_congr_left fun r hr => hcount r hr, List.map_const',
          List.sum_replicate, smul_eq_mul]
      have e1 : (List.map (brennanWindows W) X).flatten.length
          = (X.map fun r => (brennanWindows W r).length).sum := by
        rw [List.length_flatten, List.map_map]
        rfl
      have e2 : (List.replicate X.length (brennanWindows W Y)).flatten.length
          = X.length * (brennanWindows W Y).length := by
        rw [List.length_flatten, List.map_replicate, List.sum_replicate, smul_eq_mul]
      have e3 : ((List.range X.length).map fun s =>
            List.replicate (brennanWindows W Y).length s).flatten.length
          = X.length * (brennanWindows W Y).length := by
        rw [List.length_flatten, List.map_map]
        rw [show (List.map (List.length ∘ fun s =>
              List.replicate (brennanWindows W Y).length s) (List.range X.length))
            = List.map (fun _ => (brennanWindows W Y).length) (List.range X.length) from
          List.map_congr_left fun s _ => List.length_replicate _ _]
        rw [List.map_const', List.sum_replicate, smul_eq_mul, List.length_range]
      exact ⟨e1, e2.trans (hsum.symm.trans e1.symm), e3.trans (hsum.symm.trans e1.symm),
        fun s hs => flatten_replicate_block X.length (brennanWindows W Y) s hs⟩
  · intro α β recs Ymap Wm Wa out h
    cases recs with
    | nil => exact absurd h (by simp [gw_batchfy])
    | cons r rest =>
      simp only [gw_batchfy] at h
      obtain ⟨parts, hparts, hout⟩ := Option.map_eq_some'.mp h
      obtain ⟨h1, h2, _⟩ := gw_collect_spec Ymap Wm Wa (r :: rest) parts hparts
      subst hout
      have g1 : (parts.map fun p => p.1).flatten.length
          = ((r :: rest).map fun rc => (gwWindows Wm rc.X).length).sum := by
        rw [List.length_flatten, List.map_map,
          show (List.map (List.length ∘ fun p => p.1) parts)
            = parts.map (fun p => p.1.length) from rfl, h1]
      have g2 : (parts.map fun p => p.2.1).flatten.length
          = (parts.map fun p => p.1).flatten.length := by
        rw [List.length_flatten, List.length_flatten, List.map_map, List.map_map]
        exact congrArg List.sum (List.map_congr_left fun p hp => (h2 p hp).1)
      have g3 : (parts.map fun p => p.2.2).flatten.length
          = (parts.map fun p => p.1).flatten.length := by
        rw [List.length_flatten, List.length_flatten, List.map_map, List.map_map]
        exact congrArg List.sum (List.map_congr_left fun p hp => (h2 p hp).2)
      exact ⟨g1, g2, g3⟩

/-- C3 witness: Brennan2018 at `X = [[1,2],[3,4]]`, `Y = [5,6]`, `W = 1`
(two subjects, two windows each, broadcast audio) and Gwilliams2022 at one
recording of length 3 with `W = 2`. -/
theorem batchfy_flat_lengths_witness :
    ([[1], [2], [3], [4]] : List (List ℕ)).length
      = (([[1, 2], [3, 4]] : List (List ℕ)).map fun r => (brennanWindows 1 r).length).sum ∧
    ((([[5], [6], [5], [6]] : List (List ℕ)).drop
        (1 * (brennanWindows 1 ([5, 6] : List ℕ)).length)).take
      (brennanWindows 1 ([5, 6] : List ℕ)).length) = brennanWindows 1 ([5, 6] : List ℕ) ∧
    ([[1, 2]] : List (List ℕ)).length
      = (([⟨1, 0, [1, 2, 3]⟩] : List (GwRec ℕ)).map fun r => (gwWindows 2 r.X).length).sum := by
  have hb := batchfy_flat_lengths.1 ℕ ℕ [[1, 2], [3, 4]] [5, 6] 1
    ([[1], [2], [3], [4]], [[5], [6], [5], [6]], [0, 0, 1, 1]) (by decide)
  have hg := batchfy_flat_lengths.2 ℕ ℕ [⟨1, 0, [1, 2, 3]⟩] (fun _ => [4, 5, 6]) 2 2
    ([[1, 2]], [[4, 5]], [0]) (by decide)
  exact ⟨hb.1, hb.2.2.2 1 (by decide), hg.1⟩

/-- C9: every emitted subject index is in `[0, num_subjects)`: Brennan2018
emits `arange(num_subjects)` broadcast over windows; Gwilliams2022 parses
the last two digits of the zero-padded subject number from the recording key
and subtracts one (through a `uint8` tensor).  Its keys are generated by
`brain_preproc` with subject numbers `1 ..= num_subjects`, and the
two-digit `zfill(2)` key format is lossless exactly for subject numbers up
to 99 (the corpus uses `num_subjects = 27`), which the hypotheses encode. -/
theorem subject_idx_range :
    (∀ (α β : Type) (X : List (List α)) (Y : List β) (W : Nat)
        (out : List (List α) × List (List β) × List Nat),
        brennan_batchfy X Y W = some out → ∀ i ∈ out.2.2, i < X.length) ∧
    ∀ (α β : Type) (recs : List (GwRec α)) (Ymap : Nat → List β) (Wm Wa N : Nat)
      (out : List (List α) × List (List β) × List Nat),
      gw_batchfy Ymap Wm Wa recs = some out →
      (∀ r ∈ recs, 1 ≤ r.subjNum ∧ r.subjNum ≤ N) → N ≤ 99 →
      ∀ i ∈ out.2.2, i < N := by
  constructor
  · intro α β X Y W out h i hi
    rw [brennan_batchfy] at h
    split at h
    case isFalse => exact absurd h (by simp)
    case isTrue hall =>
      simp only [Option.some.injEq] at h
      subst h
      obtain ⟨l, hl, hil⟩ := List.mem_flatten.mp hi
      obtain ⟨s, hs, rfl⟩ := List.mem_map.mp hl
      have := List.eq_of_mem_replicate hil
      subst this
      exact List.mem_range.mp hs
  · intro α β recs Ymap Wm Wa N out h hsub hN i hi
    cases recs with
    | nil => exact absurd h (by simp [gw_batchfy])
    | cons r rest =>
      simp only [gw_batchfy] at h
      obtain ⟨parts, hparts, hout⟩ := Option.map_eq_some'.mp h
      obtain ⟨-, -, h3⟩ := gw_collect_spec Ymap Wm Wa (r :: rest) parts hparts
      subst hout
      obtain ⟨l, hl, hil⟩ := List.mem_flatten.mp hi
      obtain ⟨p, hp, rfl⟩ := List.mem_map.mp hl
      obtain ⟨rc, hrc, rfl⟩ := h3 p hp i hil
      obtain ⟨h1s, h2s⟩ := hsub rc hrc
      have hs100 : rc.subjNum % 100 = rc.subjNum := Nat.mod_eq_of_lt (by omega)
      simp only [gwSubjIdx, hs100]
      have hemod : ((rc.subjNum : Int) - 1).emod 256 = (rc.subjNum : Int) - 1 :=
        Int.emod_eq_of_lt (by omega) (by omega)
      rw [hemod]
      omega

/-- C9 witness: Brennan2018 at two subjects (`X = [[9],[8]]`, `Y = [7]`,
`W = 1`, emitted indices `[0, 1]`) and Gwilliams2022 at one recording with
subject number 1 (emitted index 0), `N = 1`. -/
theorem subject_idx_range_witness :
    (1 : ℕ) < ([[9], [8]] : List (List ℕ)).length ∧ (0 : ℕ) < 1 :=
  ⟨subject_idx_range.1 ℕ ℕ [[9], [8]] [7] 1 ([[9], [8]], [[7], [7]], [0, 1])
      (by decide) 1 (by decide),
   subject_idx_range.2 ℕ ℕ [⟨1, 0, [1, 2, 3]⟩] (fun _ => [4, 5, 6]) 2 2 1
      ([[1, 2]], [[4, 5]], [0]) (by decide) (by decide) (by decide) 0 (by decide)⟩

theorem detect_go_length (l : List Annot) :
    ∀ (prev : ℚ) (t : Nat),
      (detect_go prev t l).length + 2 = 2 * countRuns (prev :: l.map (·.sound_id)) := by
  induction l with
  | nil => intro prev t; simp [detect_go, countRuns]
  | cons a rest ih =>
    intro prev t
    by_cases h : a.sound_id = prev
    · simp only [detect_go, if_pos h, List.map_cons]
      have hc : countRuns (prev :: a.sound_id :: rest.map (·.sound_id))
          = countRuns (prev :: rest.map (·.sound_id)) := by
        rw [h]
        simp [countRuns]
      rw [hc]
      exact ih prev (t + 1)
    · simp only [detect_go, if_neg h, List.map_cons, List.length_cons]
      have hc : countRuns (prev :: a.sound_id :: rest.map (·.sound_id))
          = 1 + countRuns (a.sound_id :: rest.map (·.sound_id)) := by
        have hne : ¬ prev = a.sound_id := fun e => h e.symm
        simp [countRuns, hne]
      rw [hc]
      have := ih a.sound_id (t + 1)
      omega

theorem detect_go_bounds (l : List Annot) :
    ∀ (prev : ℚ) (t : Nat), ∀ x ∈ detect_go prev t l,
      (t : Int) - 1 ≤ x ∧ x < (t : Int) + l.length := by
  induction l with
  | nil => intro prev t x hx; simp [detect_go] at hx
  | cons a rest ih =>
    intro prev t x hx
    by_cases h : a.sound_id = prev
    · rw [detect_go, if_pos h] at hx
      obtain ⟨h1, h2⟩ := ih prev (t + 1) x hx
      constructor
      · push_cast at h1 ⊢; omega
      · simp only [List.length_cons]; push_cast at h2 ⊢; omega
    · rw [detect_go, if_neg h] at hx
      simp only [List.mem_cons] at hx
      rcases hx with rfl | rfl | hx
      · simp only [List.length_cons]; push_cast; omega
      · simp only [List.length_cons]; push_cast; omega
      · obtain ⟨h1, h2⟩ := ih a.sound_id (t + 1) x hx
        constructor
        · push_cast at h1 ⊢; omega
        · simp only [List.length_cons]; push_cast at h2 ⊢; omega

theorem pairUp_even :
    ∀ (l : List Int), l.length % 2 = 0 →
      ∃ ps, pairUp l = some ps ∧ ps.length * 2 = l.length ∧
        ∀ p ∈ ps, p.1 ∈ l ∧ p.2 ∈ l := by
  intro l
  induction l using pairUp.induct with
  | case1 => intro _; exact ⟨[], rfl, rfl, by simp⟩
  | case2 x => intro h; simp at h
  | case3 a b rest ih =>
    intro h
    simp only [List.length_cons] at h
    obtain ⟨ps, hps, hlen, hmem⟩ := ih (by omega)
    refine ⟨(a, b) :: ps, ?_, ?_, ?_⟩
    · simp only [pairUp, hps, Option.map_some']
    · simp only [List.length_cons]; omega
    · intro p hp
      rcases List.mem_cons.mp hp with rfl | hp'
      · exact ⟨by simp, by simp⟩
      · obtain ⟨hm1, hm2⟩ := hmem p hp'
        exact ⟨by simp [hm1], by simp [hm2]⟩

theorem segTimes_some (annots : List Annot) (p : Int × Int)
    (h1 : 0 ≤ p.1) (h2 : 0 ≤ p.2)
    (h1' : p.1 < (annots.length : Int)) (h2' : p.2 < (annots.length : Int)) :
    (segTimes annots p).isSome := by
  have hn1 : p.1.toNat < annots.length := by omega
  have hn2 : p.2.toNat < annots.length := by omega
  rw [segTimes, if_neg (by omega), if_neg (by omega),
    List.get?_eq_get hn1, List.get?_eq_get hn2]
  rfl

theorem segTimesAll_some (annots : List Annot) :
    ∀ (ps : List (Int × Int)),
      (∀ p ∈ ps, 0 ≤ p.1 ∧ 0 ≤ p.2 ∧
        p.1 < (annots.length : Int) ∧ p.2 < (annots.length : Int)) →
      ∃ ts, segTimesAll annots ps = some ts ∧ ts.length = ps.length := by
  intro ps
  induction ps with
  | nil => intro _; exact ⟨[], rfl, rfl⟩
  | cons p rest ih =>
    intro hb
    obtain ⟨hp1, hp2, hp3, hp4⟩ := hb p (by simp)
    obtain ⟨ts, hts, hlen⟩ := ih fun q hq => hb q (List.mem_cons_of_mem _ hq)
    obtain ⟨q, hq⟩ := Option.isSome_iff_exists.mp (segTimes_some annots p hp1 hp2 hp3 hp4)
    exact ⟨q :: ts, by simp only [segTimesAll, hq, hts], by simp [hlen]⟩

/-- C5: for every brain matrix and nonempty annotation stream whose first
sound id differs from the `-1.0` sentinel, `trim_nosound_regions` returns
(no exception) a matrix that is the concatenation of the per-segment slices
— so its total time length is the sum of the individual segment slice
lengths — together with exactly `N` real-duration entries, where `N` is the
number of maximal runs of consecutive equal sound identifiers. -/
theorem trim_segment_count (α : Type) (meg : List α) (a : Annot) (rest : List Annot)
    (hfirst : a.sound_id ≠ -1) :
    ∃ times : List (ℚ × ℚ),
      trim_nosound_regions meg (a :: rest)
        = some ((times.map fun p =>
              pySlice meg (pyInt (p.1 * 1000)) (pyInt (p.2 * 1000))).flatten,
            times.map fun p => p.2 - p.1) ∧
      times.length = countRuns ((a :: rest).map (·.sound_id)) ∧
      ((times.map fun p =>
          pySlice meg (pyInt (p.1 * 1000)) (pyInt (p.2 * 1000))).flatten).length
        = (times.map fun p =>
            (pySlice meg (pyInt (p.1 * 1000)) (pyInt (p.2 * 1000))).length).sum := by
  have hd : detect_go (-1) 0 (a :: rest)
      = (-1 : Int) :: (0 : Int) :: detect_go a.sound_id 1 rest := by
    rw [detect_go, if_neg hfirst]
    norm_num
  have hDlen := detect_go_length rest a.sound_id 1
  have hseq : (detect_go (-1) 0 (a :: rest)).drop 1 ++ [((a :: rest).length : Int) - 1]
      = (0 : Int) :: (detect_go a.sound_id 1 rest ++ [((a :: rest).length : Int) - 1]) := by
    rw [hd]
    rfl
  have hbounds : ∀ x ∈ (0 : Int) ::
      (detect_go a.sound_id 1 rest ++ [((a :: rest).length : Int) - 1]),
      0 ≤ x ∧ x < ((a :: rest).length : Int) := by
    intro x hx
    rcases List.mem_cons.mp hx with rfl | hx'
    · simp only [List.length_cons]
      constructor
      · omega
      · push_cast; omega
    · rcases List.mem_append.mp hx' with hD | hlast
      · obtain ⟨hb1, hb2⟩ := detect_go_bounds rest a.sound_id 1 x hD
        simp only [List.length_cons] at *
        push_cast at hb1 hb2 ⊢
        omega
      · simp only [List.mem_singleton] at hlast
        subst hlast
        simp only [List.length_cons]
        push_cast
        omega
  obtain ⟨ps, hps, hpslen, hpmem⟩ := pairUp_even
    ((0 : Int) :: (detect_go a.sound_id 1 rest ++ [((a :: rest).length : Int) - 1]))
    (by simp; omega)
  obtain ⟨ts, hts, htslen⟩ := segTimesAll_some (a :: rest) ps (by
    intro p hp
    obtain ⟨hm1, hm2⟩ := hpmem p hp
    obtain ⟨hc1, hc2⟩ := hbounds p.1 hm1
    obtain ⟨hc3, hc4⟩ := hbounds p.2 hm2
    exact ⟨hc1, hc3, hc2, hc4⟩)
  refine ⟨ts, ?_, ?_, ?_⟩
  · rw [trim_nosound_regions, hseq]
    simp only [hps, hts]
  · have hN : ps.length = countRuns ((a :: rest).map (·.sound_id)) := by
      simp at hpslen
      simp only [List.map_cons]
      omega
    rw [htslen, hN]
  · rw [List.length_flatten, List.map_map]
    rfl

/-- C5 witness: three annotations forming two runs of sound ids (`5, 5, 7`);
the trimming succeeds. -/
theorem trim_segment_count_witness :
    (trim_nosound_regions ([7, 8, 9] : List ℕ)
      (⟨5, ⟨0, 0, 0⟩, 1 / 1000⟩ ::
        [⟨5, ⟨0, 0, 1000⟩, 1 / 1000⟩, ⟨7, ⟨0, 0, 2000⟩, 1 / 1000⟩])).isSome = true := by
  obtain ⟨ts, h1, -, -⟩ := trim_segment_count ℕ [7, 8, 9] ⟨5, ⟨0, 0, 0⟩, 1 / 1000⟩
    [⟨5, ⟨0, 0, 1000⟩, 1 / 1000⟩, ⟨7, ⟨0, 0, 2000⟩, 1 / 1000⟩] (by norm_num)
  rw [h1]
  rfl

/-- C6: the silence-trimming extractor slices the raw brain matrix at
`int(start * 1000)` / `int(end * 1000)` — i.e. it behaves exactly like the
rate-parameterised extractor fixed at 1000 samples per second, regardless of
the matrix's actual sample rate, on every input. -/
theorem trim_millisecond_indexing (α : Type) (meg : List α) (annots : List Annot) :
    trim_nosound_regions meg annots = trimWithRate 1000 meg annots := by
  cases annots <;> rfl

theorem lookup_setTask (store : List (Nat × List ℚ)) (task : Nat) (v : List ℚ) :
    (setTask store task v).lookup task = some v := by
  induction store with
  | nil => simp [setTask, List.lookup]
  | cons kv rest ih =>
    obtain ⟨k, w⟩ := kv
    by_cases h : k = task
    · subst h
      simp [setTask, List.lookup]
    · simp only [setTask, if_neg h, List.lookup_cons]
      have hbeq : (task == k) = false := beq_eq_false_iff_ne.mpr fun e => h e.symm
      simp only [hbeq]
      exact ih

/-- C7 counterexample: the claim says processing a different duration
sequence for an already-recorded task "never raises an exception"; but with
task 0 cached as `[5, 3.2]`, new durations `[5, 3.3, 1]` of a different
length make `np.allclose` raise a broadcast `ValueError` (modelled `none`),
so `update_real_durations` does raise. -/
theorem update_durations_mismatch_raises :
    update_real_durations [(0, [5, 16 / 5])] 0 [5, 33 / 10, 1] = none := by
  rfl

/-- C7 (amended): when the new duration sequence has the same length as the
cached one (the same segment count, as for two recordings of one task),
`update_real_durations` never raises: it returns, warns exactly when the two
sequences are not element-wise close in the `np.allclose` sense, and always
overwrites the cached entry so the most recently processed subject's values
win. -/
theorem update_durations_same_length (store : List (Nat × List ℚ)) (task : Nat)
    (old new : List ℚ) (hold : store.lookup task = some old)
    (hlen : old.length = new.length) :
    update_real_durations store task new
      = some (setTask store task new,
          !((old.zip new).all fun p => closePair p.1 p.2)) ∧
    (setTask store task new).lookup task = some new := by
  constructor
  · simp only [update_real_durations, hold, np_allclose, if_pos hlen]
  · exact lookup_setTask store task new

/-- C7 witness: cached `[5, 3.2]` vs new `[5, 3.3]` for task 0 (the spec's
example): same length, so no exception; the entry is overwritten. -/
theorem update_durations_same_length_witness :
    update_real_durations [(0, [5, 16 / 5])] 0 [5, 33 / 10]
      = some (setTask [(0, [5, 16 / 5])] 0 [5, 33 / 10],
          !((([5, 16 / 5] : List ℚ).zip [5, 33 / 10]).all fun p => closePair p.1 p.2)) ∧
    (setTask [(0, [5, 16 / 5])] 0 [5, 33 / 10]).lookup 0 = some [5, 33 / 10] :=
  update_durations_same_length [(0, [5, 16 / 5])] 0 [5, 16 / 5] [5, 33 / 10] rfl rfl

/-- C8: for a waveform and a nonnegative externally-recorded real duration,
the audio producer truncates to `cutoff = int(sample_rate * real_duration)`
samples; a waveform not longer than the cutoff is left untruncated with the
warning flag raised, so the resulting length is always
`min(original_length, cutoff)`. -/
theorem audio_cut_min_length (w : List ℚ) (srate : Nat) (dur : ℚ) (hdur : 0 ≤ dur) :
    (audio_cut w srate dur).1.length
      = min w.length (pyInt ((srate : ℚ) * dur)).toNat ∧
    (w.length ≤ (pyInt ((srate : ℚ) * dur)).toNat →
      (audio_cut w srate dur).1 = w ∧ (audio_cut w srate dur).2 = true) := by
  have h0 : ¬ ((srate : ℚ) * dur < 0) :=
    not_lt.mpr (mul_nonneg (by positivity) hdur)
  have hc : 0 ≤ pyInt ((srate : ℚ) * dur) := by
    rw [pyInt, if_neg h0]
    exact Int.natCast_nonneg _
  have hcoe : pyInt ((srate : ℚ) * dur) = ((pyInt ((srate : ℚ) * dur)).toNat : Int) :=
    (Int.toNat_of_nonneg hc).symm
  by_cases hlt : pyInt ((srate : ℚ) * dur) < (w.length : Int)
  · constructor
    · show (if pyInt ((srate : ℚ) * dur) < (w.length : Int)
          then (pySlice w 0 (pyInt ((srate : ℚ) * dur)), false) else (w, true)).1.length
        = min w.length (pyInt ((srate : ℚ) * dur)).toNat
      rw [if_pos hlt, hcoe, pySlice_zero_coe]
      simp only [List.length_take]
      omega
    · intro hle
      omega
  · have hle : w.length ≤ (pyInt ((srate : ℚ) * dur)).toNat := by omega
    constructor
    · show (if pyInt ((srate : ℚ) * dur) < (w.length : Int)
          then (pySlice w 0 (pyInt ((srate : ℚ) * dur)), false) else (w, true)).1.length
        = min w.length (pyInt ((srate : ℚ) * dur)).toNat
      rw [if_neg hlt, min_eq_left hle]
    · intro _
      constructor
      · show (if pyInt ((srate : ℚ) * dur) < (w.length : Int)
            then (pySlice w 0 (pyInt ((srate : ℚ) * dur)), false) else (w, true)).1 = w
        rw [if_neg hlt]
      · show (if pyInt ((srate : ℚ) * dur) < (w.length : Int)
            then (pySlice w 0 (pyInt ((srate : ℚ) * dur)), false) else (w, true)).2 = true
        rw [if_neg hlt]

/-- C8 witness: waveform of 3 samples, `sample_rate = 2`, duration 1 second,
hence `cutoff = 2`: the result is truncated to `min 3 2 = 2` samples. -/
theorem audio_cut_min_length_witness :
    (audio_cut [1, 2, 3] 2 1).1.length
      = min ([1, 2, 3] : List ℚ).length (pyInt (((2 : Nat) : ℚ) * 1)).toNat ∧
    (([1, 2, 3] : List ℚ).length ≤ (pyInt (((2 : Nat) : ℚ) * 1)).toNat →
      (audio_cut [1, 2, 3] 2 1).1 = [1, 2, 3] ∧ (audio_cut [1, 2, 3] 2 1).2 = true) :=
  audio_cut_min_length [1, 2, 3] 2 1 (by norm_num)

theorem getD_map_range {γ : Type} (n : Nat) (f : Nat → γ) (i : Nat) (hi : i < n) (d : γ) :
    ((List.range n).map f).getD i d = f i := by
  rw [List.getD_eq_getElem?_getD, List.getElem?_map, List.getElem?_range hi,
    Option.map_some', Option.getD_some]

/-- C10 (implicit): in `ToyDataset`, for `X_dim ≤ Y_dim` and any valid item
index `i`, the brain tensor `X[i]` equals the first `X_dim` channels of the
audio tensor `Y[i]`: `X` is the cosine of the `[:X_dim]` slice of the very
pre-cosine stack whose cosine is `Y`. -/
theorem toy_X_first_channels (f : ℚ → ℚ) (ls : List (List ℚ)) (rands : List ℚ)
    (Xdim : Nat) (i : Nat) (hX : Xdim ≤ rands.length) (hi : i < ls.length) :
    (toy_X f Xdim ls rands).getD i [] = ((toy_Y f ls rands).getD i []).take Xdim := by
  rw [toy_X, toy_Y, permute102, permute102, List.map_map, List.map_map,
    getD_map_range ls.length _ i hi, getD_map_range ls.length _ i hi]
  simp only [Function.comp]
  rw [← List.map_take, ← List.map_take]

/-- C10 witness: `ls = [[1, 2]]`, `rands = [3, 5]` (`Y_dim = 2`),
`X_dim = 1`, item `i = 0`, with the abstract cosine instantiated to the
identity. -/
theorem toy_X_first_channels_witness :
    (toy_X (fun q => q) 1 [[1, 2]] [3, 5]).getD 0 []
      = ((toy_Y (fun q => q) [[1, 2]] [3, 5]).getD 0 []).take 1 :=
  toy_X_first_channels (fun q => q) [[1, 2]] [3, 5] 1 0 (by decide) (by decide)
